import Mathlib

/-!
Verification of the large-number string arithmetic in `euler/numeric.py`
(classes `LargeNumberOpUtils`, `LargeNumberFirstDegreeOpUtils`,
`LargeNumberAddOpUtils`, `LargeNumberSubtractOpUtils`, `LargeNumberMulOpUtils`,
`LargeNumberOpsHelper`).

Strings are modelled as `List Char`.  Python integers are modelled as `Nat`
(or `Int` where values can be negative).  The expression `int(x / y)` in the
source is Python float ("true") division followed by truncation: the exact
rational `x / y` is correctly rounded to an IEEE-754 binary64 value
(round-half-even) and then truncated towards zero.  This is modelled exactly
by `pydiv` below; it differs from floor division for quotients whose
fractional part is extremely close to 1 (e.g. `int((2*10^18-2)/10^18) = 2`).
All quotients arising here are non-negative and lie well inside the normal
(non-subnormal, non-overflowing) binary64 range, where `pydiv` is exact.
-/

namespace EulerNumeric

/-- Round-half-even (banker's rounding) of the rational `n / d` to an integer. -/
def rhe (n d : Nat) : Nat :=
  let q := n / d
  let r := n % d
  if 2 * r < d then q
  else if d < 2 * r then q + 1
  else if q % 2 = 0 then q else q + 1

/-- Fuel-driven floor of the base-2 logarithm (exact for `n < 2 ^ fuel`). -/
def log2fuel : Nat → Nat → Nat
  | 0, _ => 0
  | f + 1, n => if 2 ≤ n then log2fuel f (n / 2) + 1 else 0

/-- Smallest `k` (searching upward from the start value) with `b ≤ a * 2 ^ k`. -/
def negExpAux : Nat → Nat → Nat → Nat → Nat
  | 0, _, _, k => k
  | f + 1, a, b, k => if b ≤ a * 2 ^ k then k else negExpAux f a b (k + 1)

/-- Model of Python's `int(a / b)` for non-negative integers `a`, `b`:
the exact quotient is correctly rounded to binary64 (53-bit significand,
round-half-even) and truncated towards zero.  The significand is obtained by
scaling the quotient into `[2^52, 2^53)` and rounding half-even. -/
def pydiv (a b : Nat) : Nat :=
  if a = 0 ∨ b = 0 then 0
  else if b ≤ a then
    let e := log2fuel 128 (a / b)
    if 52 ≤ e then rhe a (b * 2 ^ (e - 52)) * 2 ^ (e - 52)
    else rhe (a * 2 ^ (52 - e)) b / 2 ^ (52 - e)
  else
    let k := negExpAux 1200 a b 1
    rhe (a * 2 ^ (52 + k)) b / 2 ^ (52 + k)

/-- Python `str.lstrip('0')`: drop leading `'0'` characters. -/
def lstrip0 (s : List Char) : List Char := s.dropWhile (fun c => c = '0')

/-- Python `str.zfill(w)`: left-pad with `'0'` to width `w`, keeping a leading
sign character in front of the inserted zeros. -/
def pyZfill (s : List Char) (w : Nat) : List Char :=
  if w ≤ s.length then s
  else
    match s with
    | c :: rest =>
        if c = '-' ∨ c = '+' then c :: (List.replicate (w - s.length) '0' ++ rest)
        else List.replicate (w - s.length) '0' ++ s
    | [] => List.replicate w '0'

/-- Python `int(s)` on a string of decimal digits. -/
def strToNat (s : List Char) : Nat :=
  s.foldl (fun acc c => 10 * acc + (c.toNat - 48)) 0

/-- Decimal digits of `n`, most significant first (`fuel` bounds the length). -/
def natDigitsAux : Nat → Nat → List Char
  | 0, _ => []
  | f + 1, n => if n = 0 then [] else natDigitsAux f (n / 10) ++ [Char.ofNat (48 + n % 10)]

/-- Python `str(n)` for a non-negative integer. -/
def natToStr (n : Nat) : List Char :=
  if n = 0 then ['0'] else natDigitsAux 64 n

/-- Python `str(i)` for an integer (a `'-'` sign in front of negatives). -/
def intToStr (i : Int) : List Char :=
  if i < 0 then '-' :: natToStr i.natAbs else natToStr i.toNat

/-- Python slice `s[i : i+n]` (clamped at the end of the string). -/
def pySlice (s : List Char) (i n : Nat) : List Char := (s.drop i).take n

/-- The chunk substrings `[num[i:i+cs] for i in range(0, targetLen, cs)]`. -/
def sliceChunks (num : List Char) (targetLen cs : Nat) : List (List Char) :=
  (List.range ((targetLen + cs - 1) / cs)).map (fun k => pySlice num (k * cs) cs)

/-- `LargeNumberOpUtils.compute_divisible_len`:
`(int(str_len / chunk_size) + 1) * chunk_size`. -/
def computeDivisibleLen (cs strLen : Nat) : Nat := (pydiv strLen cs + 1) * cs

/-- `LargeNumberOpUtils._compute_target_len`. -/
def computeTargetLen (cs lenA lenB : Nat) : Nat := computeDivisibleLen cs (max lenA lenB)

/-- `LargeNumberOpUtils._pad_split_and_reverse`: zero-fill to the target
length, slice into `cs`-wide windows, reverse to least-significant-first. -/
def padSplitReverse (cs : Nat) (num : List Char) (targetLen : Nat) : List (List Char) :=
  (sliceChunks (pyZfill num targetLen) targetLen cs).reverse

/-- `LargeNumberOpUtils._make_chunks`: strip leading zeros from both operands,
chunk both at the common target length and parse every chunk. -/
def makeChunks (cs : Nat) (a b : List Char) : List Nat × List Nat :=
  let a' := lstrip0 a
  let b' := lstrip0 b
  let t := computeTargetLen cs a'.length b'.length
  ((padSplitReverse cs a' t).map strToNat, (padSplitReverse cs b' t).map strToNat)

/-- Chunk modulus for addition and subtraction (`10 ** 18`). -/
def MOD18 : Nat := 10 ^ 18

/-- Chunk modulus for multiplication (`10 ** 9`). -/
def MOD9 : Nat := 10 ^ 9

/-- `LargeNumberFirstDegreeOpUtils.operate`, parameterised by the subclass
`_op_chunks` (returning per-chunk kept value and carry). -/
def operate (cs : Nat) (opChunks : Nat → Nat → Int × Int) (a b : List Char) : List Char :=
  let p := makeChunks cs a b
  let result := (p.1.zip p.2).map (fun q => opChunks q.1 q.2)
  let totals : List Int := result.map Prod.fst ++ [0]
  let carries : List Int := 0 :: result.map Prod.snd
  let c := (totals.zip carries).map (fun q => pyZfill (intToStr (q.1 + q.2)) cs)
  lstrip0 c.reverse.flatten

/-- `LargeNumberAddOpUtils._op_chunks`: `total = c1 + c2`,
carry `int(total / mod)` (Python float division!), kept `total % mod`. -/
def addOpChunks (c1 c2 : Nat) : Int × Int :=
  (((c1 + c2) % MOD18 : Nat), (pydiv (c1 + c2) MOD18 : Nat))

/-- `LargeNumberAddOpUtils.add`. -/
def add (a b : List Char) : List Char := operate 18 addOpChunks a b

/-- `LargeNumberSubtractOpUtils._op_chunks`: borrow `10^18` when
`chunk1 < chunk2`, with carry `-1`. -/
def subOpChunks (c1 c2 : Nat) : Int × Int :=
  if c1 < c2 then ((c1 : Int) + (MOD18 : Int) - (c2 : Int), -1)
  else ((c1 : Int) - (c2 : Int), 0)

/-- Errors `LargeNumberSubtractOpUtils.subtract` can raise: the explicit
`ValueError` for a negative-prefixed operand, and the `IndexError` from
`int(b[0])` in `_is_smaller` when both stripped operands are empty. -/
inductive SubError where
  | signError : SubError
  | indexError : SubError
deriving DecidableEq, Repr

/-- `LargeNumberSubtractOpUtils._is_smaller`: compare stripped lengths, and on
equal lengths compare only the first digits; `int(b[0])` raises an
`IndexError` when both stripped strings are empty. -/
def isSmaller (a b : List Char) : Except SubError Bool :=
  let a' := lstrip0 a
  let b' := lstrip0 b
  if b'.length > a'.length then .ok true
  else if a'.length = b'.length then
    match b', a' with
    | bc :: _, ac :: _ => .ok (decide (ac.toNat - 48 < bc.toNat - 48))
    | _, _ => .error .indexError
  else .ok false

/-- `LargeNumberSubtractOpUtils.subtract`: reject `'-'`-prefixed operands,
swap (prefixing `'-'`) when `a` is detected as smaller. -/
def subtract (a b : List Char) : Except SubError (List Char) :=
  if a.head? = some '-' then .error .signError
  else if b.head? = some '-' then .error .signError
  else
    match isSmaller a b with
    | .error e => .error e
    | .ok true => .ok ('-' :: operate 18 subOpChunks b a)
    | .ok false => .ok (operate 18 subOpChunks a b)

/-- `LargeNumberMulOpUtils._mul_with_chunk`: multiply every chunk of `num` by
the scalar `digit`, carrying with `int(chunk_res / mod)`, then prepend the
final carry and strip leading zeros. -/
def mulWithChunk (num : List (List Char)) (digit : Nat) : List Char :=
  let r := num.foldl
    (fun (acc : List (List Char) × Nat) chunk =>
      let chunkRes := strToNat chunk * digit + acc.2
      (acc.1 ++ [pyZfill (natToStr (chunkRes % MOD9)) 9], pydiv chunkRes MOD9))
    ([], 0)
  lstrip0 (natToStr r.2 ++ r.1.reverse.flatten)

/-- Python `functools.reduce` with no initial value; the empty-list case
raises a `TypeError` in Python and is unreachable in `multiply` (the chunk
list is never empty), so a default is returned there. -/
def reduce1 (f : List Char → List Char → List Char) (xs : List (List Char))
    (dflt : List Char) : List Char :=
  match xs with
  | [] => dflt
  | x :: t => t.foldl f x

/-- `LargeNumberMulOpUtils.multiply`: chunk both raw operands (no leading-zero
strip) at width 9, form one partial product per chunk of `a`, shift each by
`i * 9` zero characters and fold them together with `add`. -/
def multiply (a b : List Char) : List Char :=
  let t := computeTargetLen 9 a.length b.length
  let aC := padSplitReverse 9 a t
  let bC := padSplitReverse 9 b t
  let cwr := aC.map (fun chunk => mulWithChunk bC (strToNat chunk))
  let cwr2 := cwr.enum.map (fun q => q.2 ++ List.replicate (q.1 * 9) '0')
  reduce1 add cwr2 []

/-- `LargeNumberOpsHelper.large_number_pow`:
`reduce(multiply, [num] * int(exp))`; `reduce` raises a `TypeError` on an
empty iterable, i.e. when the exponent is zero, modelled as `none`. -/
def largeNumberPow (num exp : List Char) : Option (List Char) :=
  match List.replicate (strToNat exp) num with
  | [] => none
  | x :: xs => some (xs.foldl (fun acc y => multiply acc y) x)

/-- Characters that are decimal digits. -/
def isDigitChar (c : Char) : Prop := 48 ≤ c.toNat ∧ c.toNat ≤ 57

instance (c : Char) : Decidable (isDigitChar c) := by
  unfold isDigitChar; infer_instance

/-- Strings consisting only of decimal digits. -/
def isDigitStr (s : List Char) : Prop := ∀ c ∈ s, isDigitChar c

instance (s : List Char) : Decidable (isDigitStr s) := by
  unfold isDigitStr; infer_instance

/-- Strings that are syntactically valid subtraction operands: decimal digits
with an optional leading `'-'` sign. -/
def isOperandStr (s : List Char) : Prop :=
  isDigitStr s ∨ ∃ t, s = '-' :: t ∧ isDigitStr t

/-- Value of a most-significant-first list of base-`M` digits. -/
def valFold (M : Nat) (l : List Nat) : Nat := l.foldl (fun acc x => acc * M + x) 0

/-- Splitting a string into `m` consecutive windows of width `cs`. -/
def chunksN (cs : Nat) : Nat → List Char → List (List Char)
  | 0, _ => []
  | m + 1, s => s.take cs :: chunksN cs m (s.drop cs)

/-- Kept value of a subtraction chunk pair
(first component of `LargeNumberSubtractOpUtils._op_chunks`). -/
def subT (p : Nat × Nat) : Int :=
  if p.1 < p.2 then (p.1 : Int) + (MOD18 : Int) - (p.2 : Int) else (p.1 : Int) - (p.2 : Int)

/-- Borrow of a subtraction chunk pair
(second component of `LargeNumberSubtractOpUtils._op_chunks`). -/
def subB (p : Nat × Nat) : Int := if p.1 < p.2 then -1 else 0

/-- Borrow flag issued by the leading pair of a most-significant-first list
of chunk pairs. -/
def borrowTop : List (Nat × Nat) → Int
  | [] => 0
  | p :: _ => subB p

/-- Chunk display values (kept total plus incoming borrow) of a
most-significant-first list of chunk pairs, excluding the extra top position. -/
def disp : List (Nat × Nat) → List Int
  | [] => []
  | p :: rest => (subT p + borrowTop rest) :: disp rest

/-- First nonzero entry of a list of integers, scanning from the left. -/
def firstNZ (l : List Int) : Option Int := (l.dropWhile (fun d => d = 0)).head?

/-- Display values as assembled inside `operate` (least significant first),
with `x` substituted for the appended extra top total. -/
def dispLSFaux (q : List (Nat × Nat)) (x : Int) : List Int :=
  List.zipWith (· + ·) (q.map subT ++ [x]) (0 :: q.map subB)

end EulerNumeric

namespace EulerNumeric

/-- C1: refuted as stated — `add` is not exact.  On the 18-digit operands
`a = b = "999999999999999999"` the chunk total is `2 * 10^18 - 2`, whose carry
`int(total / 10^18)` evaluates (through binary64 division) to `2` instead of
`floor = 1`, so the code returns `"2999999999999999998"` although the exact
sum is `1999999999999999998`. -/
theorem add_exactness_fails_on_carry :
    add "999999999999999999".data "999999999999999999".data = "2999999999999999998".data ∧
    strToNat "999999999999999999".data + strToNat "999999999999999999".data =
      1999999999999999998 ∧
    strToNat "2999999999999999998".data ≠ 1999999999999999998 := by
  refine ⟨by decide, by decide, by decide⟩

/-- C2: refuted as stated — the round-trip `subtract(add(x, y), y) = x` fails
at `x = "0"`, `y = "5"`: `add("0", "5") = "5"` and `subtract("5", "5")`
returns the empty string instead of `"0"`. -/
theorem subtract_add_roundtrip_fails :
    subtract (add "0".data "5".data) "5".data = Except.ok [] ∧
    ([] : List Char) ≠ "0".data := by
  refine ⟨by rfl, by decide⟩

/-- C4: refuted as stated — the addition carry is not `floor(total / 10^18)`.
At the chunk pair `(10^18 - 1, 10^18 - 1)` the code's
`int(total / mod)` (binary64 division) yields carry `2`, while the exact
floor of `total / 10^18` is `1`. -/
theorem add_op_chunks_carry_not_floor :
    addOpChunks 999999999999999999 999999999999999999 = (999999999999999998, 2) ∧
    (999999999999999999 + 999999999999999999) % MOD18 = 999999999999999998 ∧
    (999999999999999999 + 999999999999999999) / MOD18 = 1 ∧
    (2 : Int) ≠ (1 : Int) := by
  refine ⟨by decide, by decide, by decide, by decide⟩

/-- C5: refuted as stated — `multiply(a, "0")` returns the empty string, not
`"0"`: every partial product strips to the empty string and so does the final
fold. -/
theorem multiply_by_zero_returns_empty :
    multiply "5".data "0".data = [] ∧ ([] : List Char) ≠ "0".data := by
  refine ⟨by decide, by decide⟩

/-- C6: refuted as stated — `power(a, "0")` does not return `"1"`:
`reduce` is applied to the empty list `[num] * 0` with no initial value,
which raises a `TypeError` in Python (modelled as `none`). -/
theorem pow_zero_exponent_raises :
    largeNumberPow "2".data "0".data = none := by decide

/-- C7 (counterexample): for a stripped length that is already a multiple of
the chunk width, the target length is not that length: with width 18 and
`n = 18` the code computes `(int(18 / 18) + 1) * 18 = 36`, not 18. -/
theorem divisible_len_pads_multiples_further :
    computeDivisibleLen 18 18 = 36 ∧ (36 : Nat) ≠ 18 := by
  refine ⟨by decide, by decide⟩

/-- C8 (counterexample): `subtract("0", "0")` carries no `'-'` sign on either
operand, yet it does not complete: `int(b[0])` in `_is_smaller` raises an
`IndexError` because both stripped operands are empty. -/
theorem subtract_zero_zero_index_error :
    subtract "0".data "0".data = Except.error SubError.indexError ∧
    "0".data.head? ≠ some '-' ∧ ¬ ("0".data.head? = some '-') := by
  refine ⟨by rfl, by decide, by decide⟩

/-- C9: refuted as stated — subtraction output can contain an embedded `'-'`
that is not a leading sign: `subtract(10^36, "1")` returns
`"1-00000000000000001999999999999999999"`, because a chunk display value of
`-1` is rendered by `str(...).zfill(18)` in the middle of the result. -/
theorem subtract_output_embedded_minus :
    subtract ("1".data ++ List.replicate 36 '0') "1".data =
      Except.ok "1-00000000000000001999999999999999999".data ∧
    '-' ∈ "1-00000000000000001999999999999999999".data ∧
    "1-00000000000000001999999999999999999".data.head? ≠ some '-' := by
  refine ⟨by rfl, by decide, by decide⟩

/-- C10 (counterexample): prepending 27 zero characters to the operand `"1"`
grows the common chunked target length from 27 to 36, and the extra fold step
`add(r, "0"*27)` re-normalises a `10^18 - 1` chunk with the float-division
carry bug, changing the product of `"1"` and `"999999999999999999"` from
`"2999999999999999999"` to `"3999999999999999999"`. -/
theorem multiply_not_padding_invariant :
    multiply (List.replicate 27 '0' ++ "1".data) "999999999999999999".data ≠
      multiply "1".data "999999999999999999".data := by
  decide

end EulerNumeric

namespace EulerNumeric

/-- Folding the digit-accumulation step from an arbitrary accumulator. -/
theorem strToNat_foldl_acc (s : List Char) (acc : Nat) :
    s.foldl (fun a c => 10 * a + (c.toNat - 48)) acc
      = acc * 10 ^ s.length + strToNat s := by
  induction s generalizing acc with
  | nil => simp [strToNat]
  | cons c t ih =>
    simp only [List.foldl_cons, List.length_cons, strToNat]
    rw [ih, ih (10 * 0 + (c.toNat - 48))]
    ring

/-- Value of a cons in terms of the leading digit. -/
theorem strToNat_cons (c : Char) (t : List Char) :
    strToNat (c :: t) = (c.toNat - 48) * 10 ^ t.length + strToNat t := by
  have h := strToNat_foldl_acc t (10 * 0 + (c.toNat - 48))
  simpa [strToNat] using h

/-- Value of an appended string. -/
theorem strToNat_append (x y : List Char) :
    strToNat (x ++ y) = strToNat x * 10 ^ y.length + strToNat y := by
  unfold strToNat
  rw [List.foldl_append]
  exact strToNat_foldl_acc y _

/-- Zero characters contribute nothing. -/
theorem strToNat_replicate_zero (k : Nat) : strToNat (List.replicate k '0') = 0 := by
  induction k with
  | zero => rfl
  | succ n ih => rw [List.replicate_succ, strToNat_cons, ih]; simp

/-- Prepending zero characters does not change the parsed value. -/
theorem strToNat_replicate_zero_append (k : Nat) (s : List Char) :
    strToNat (List.replicate k '0' ++ s) = strToNat s := by
  rw [strToNat_append, strToNat_replicate_zero]
  simp

/-- A digit string of length `L` has value below `10 ^ L`. -/
theorem strToNat_lt (s : List Char) (h : isDigitStr s) : strToNat s < 10 ^ s.length := by
  induction s with
  | nil => simp [strToNat]
  | cons c t ih =>
    have hc := h c (List.mem_cons_self c t)
    have ht : isDigitStr t := fun x hx => h x (List.mem_cons_of_mem _ hx)
    have h1 : strToNat t < 10 ^ t.length := ih ht
    have h2 : c.toNat - 48 + 1 ≤ 10 := by
      rcases hc with ⟨hl, hr⟩; omega
    rw [strToNat_cons, List.length_cons]
    calc (c.toNat - 48) * 10 ^ t.length + strToNat t
        < (c.toNat - 48) * 10 ^ t.length + 10 ^ t.length := by omega
      _ = (c.toNat - 48 + 1) * 10 ^ t.length := by ring
      _ ≤ 10 * 10 ^ t.length := Nat.mul_le_mul_right _ h2
      _ = 10 ^ (t.length + 1) := by ring

/-- Stripping leading zeros does not change the parsed value. -/
theorem strToNat_lstrip0 (s : List Char) : strToNat (lstrip0 s) = strToNat s := by
  induction s with
  | nil => rfl
  | cons c t ih =>
    by_cases hc : c = '0'
    · subst hc
      have h1 : lstrip0 ('0' :: t) = lstrip0 t := by simp [lstrip0]
      rw [h1, ih, strToNat_cons]
      simp
    · have h1 : lstrip0 (c :: t) = c :: t := by simp [lstrip0, hc]
      rw [h1]

/-- The head of a zero-stripped string is not `'0'`. -/
theorem lstrip0_head_ne_zero (s : List Char) (c : Char) (h : (lstrip0 s).head? = some c) :
    c ≠ '0' := by
  induction s with
  | nil => simp [lstrip0] at h
  | cons x t ih =>
    by_cases hx : x = '0'
    · subst hx
      rw [show lstrip0 ('0' :: t) = lstrip0 t from by simp [lstrip0]] at h
      exact ih h
    · rw [show lstrip0 (x :: t) = x :: t from by simp [lstrip0, hx]] at h
      simp only [List.head?_cons, Option.some_inj] at h
      exact h ▸ hx

/-- Characters are determined by their code point. -/
theorem char_eq_of_toNat (c d : Char) (h : c.toNat = d.toNat) : c = d :=
  Char.ext (UInt32.ext h)

/-- A nonzero digit character has code point at least 49. -/
theorem digit_ne_zero_ge (c : Char) (hc : isDigitChar c) (h0 : c ≠ '0') :
    49 ≤ c.toNat := by
  rcases hc with ⟨hl, hr⟩
  have h48 : ('0' : Char).toNat = 48 := rfl
  rcases Nat.lt_or_ge c.toNat 49 with h | h
  · exact absurd (char_eq_of_toNat c '0' (by omega)) h0
  · exact h

/-- Stripping zeros preserves digit strings. -/
theorem isDigitStr_lstrip0 (s : List Char) (h : isDigitStr s) : isDigitStr (lstrip0 s) :=
  fun c hc => h c ((List.dropWhile_sublist _).subset hc)

/-- A digit string does not start with `'-'`. -/
theorem isDigitStr_head_ne_minus (s : List Char) (h : isDigitStr s) :
    s.head? ≠ some '-' := by
  cases s with
  | nil => simp
  | cons c t =>
    simp only [List.head?_cons]
    intro hc
    have hc2 : c = '-' := Option.some.inj hc
    have := h c (List.mem_cons_self c t)
    rw [hc2] at this
    rcases this with ⟨hl, _⟩
    have h45 : ('-' : Char).toNat = 45 := rfl
    omega

/-- The value of a digit string headed by a nonzero digit is at least
`10 ^ (length - 1)`. -/
theorem le_strToNat_of_head (c : Char) (t : List Char) (hc : isDigitChar c)
    (h0 : c ≠ '0') : 10 ^ t.length ≤ strToNat (c :: t) := by
  rw [strToNat_cons]
  have h1 : 1 ≤ c.toNat - 48 := by
    have := digit_ne_zero_ge c hc h0
    omega
  calc 10 ^ t.length = 1 * 10 ^ t.length := by ring
    _ ≤ (c.toNat - 48) * 10 ^ t.length := Nat.mul_le_mul_right _ h1
    _ ≤ (c.toNat - 48) * 10 ^ t.length + strToNat t := Nat.le_add_right _ _

/-- A shorter stripped digit string has a strictly smaller value than a longer
one (whose head is a nonzero digit). -/
theorem strToNat_lt_of_shorter (u : List Char) (c : Char) (v : List Char)
    (hu : isDigitStr u) (hc : isDigitChar c) (h0 : c ≠ '0')
    (hlen : u.length < (c :: v).length) : strToNat u < strToNat (c :: v) := by
  have h1 : strToNat u < 10 ^ u.length := strToNat_lt u hu
  have h2 : 10 ^ v.length ≤ strToNat (c :: v) := le_strToNat_of_head c v hc h0
  have h3 : u.length ≤ v.length := by
    simp only [List.length_cons] at hlen; omega
  exact lt_of_lt_of_le (lt_of_lt_of_le h1 (Nat.pow_le_pow_right (by omega) h3)) h2

/-- On equal-length digit strings, a strictly larger leading digit means a
strictly larger value. -/
theorem strToNat_lt_of_head_lt (ac : Char) (at' : List Char) (bc : Char) (bt : List Char)
    (ha : isDigitStr (ac :: at')) (hlen : at'.length = bt.length)
    (hd : ac.toNat - 48 < bc.toNat - 48) :
    strToNat (ac :: at') < strToNat (bc :: bt) := by
  rw [strToNat_cons, strToNat_cons]
  have hat : isDigitStr at' := fun x hx => ha x (List.mem_cons_of_mem _ hx)
  have h1 : strToNat at' < 10 ^ at'.length := strToNat_lt at' hat
  calc (ac.toNat - 48) * 10 ^ at'.length + strToNat at'
      < (ac.toNat - 48) * 10 ^ at'.length + 10 ^ at'.length := by omega
    _ = (ac.toNat - 48 + 1) * 10 ^ at'.length := by ring
    _ ≤ (bc.toNat - 48) * 10 ^ at'.length := Nat.mul_le_mul_right _ (by omega)
    _ = (bc.toNat - 48) * 10 ^ bt.length := by rw [hlen]
    _ ≤ (bc.toNat - 48) * 10 ^ bt.length + strToNat bt := Nat.le_add_right _ _

/-- Round-half-even lies between the floor and the ceiling of the quotient. -/
theorem rhe_bounds (n d : Nat) : n / d ≤ rhe n d ∧ rhe n d ≤ n / d + 1 := by
  simp only [rhe]
  split
  · omega
  · split
    · omega
    · split <;> omega

/-- Characterisation of `log2fuel` on inputs below `2 ^ fuel`. -/
theorem log2fuel_spec (f : Nat) : ∀ n, 0 < n → n < 2 ^ f →
    2 ^ log2fuel f n ≤ n ∧ n < 2 ^ (log2fuel f n + 1) := by
  induction f with
  | zero => intro n h0 hf; simp at hf; omega
  | succ f ih =>
    intro n h0 hf
    rw [log2fuel]
    split
    · next h2 =>
      have hn2 : 0 < n / 2 := by omega
      have hpow : (2:Nat) ^ (f + 1) = 2 * 2 ^ f := by ring
      have hlt : n / 2 < 2 ^ f := by omega
      obtain ⟨hL, hU⟩ := ih (n / 2) hn2 hlt
      have e1 : (2:Nat) ^ (log2fuel f (n / 2) + 1) = 2 * 2 ^ log2fuel f (n / 2) := by ring
      have e2 : (2:Nat) ^ (log2fuel f (n / 2) + 1 + 1) = 2 * 2 ^ (log2fuel f (n / 2) + 1) := by
        ring
      omega
    · next h2 =>
      have h1 : n = 1 := by omega
      subst h1
      simp

/-- Scaled remainders stay clear of the next binade:
`m * 2^s / b < 2^s - 1` whenever `m < b` and `2 * b ≤ 2^s`. -/
theorem scaled_rem_lt (m b s : Nat) (hb : 0 < b) (hm : m < b) (hbs : 2 * b ≤ 2 ^ s) :
    m * 2 ^ s / b < 2 ^ s - 1 := by
  rw [Nat.div_lt_iff_lt_mul hb]
  have h1 : m * 2 ^ s ≤ (b - 1) * 2 ^ s := Nat.mul_le_mul_right _ (by omega)
  have hb1 : b - 1 + 1 = b := by omega
  have h2 : (b - 1) * 2 ^ s + 2 ^ s = b * 2 ^ s := by
    calc (b - 1) * 2 ^ s + 2 ^ s = (b - 1 + 1) * 2 ^ s := by ring
      _ = b * 2 ^ s := by rw [hb1]
  have hs1 : 1 ≤ 2 ^ s := Nat.one_le_two_pow
  have hs2 : 2 ^ s - 1 + 1 = 2 ^ s := by omega
  have h3 : (2 ^ s - 1) * b + b = 2 ^ s * b := by
    calc (2 ^ s - 1) * b + b = (2 ^ s - 1 + 1) * b := by ring
      _ = 2 ^ s * b := by rw [hs2]
  have h4 : b * 2 ^ s = 2 ^ s * b := by ring
  omega

/-- Dividing the rounded, `2^s`-scaled numerator recovers the exact floor
quotient, provided the divisor is small against the scale. -/
theorem rhe_shift_div (a b s : Nat) (hb : 0 < b) (hbs : 2 * b ≤ 2 ^ s) :
    rhe (a * 2 ^ s) b / 2 ^ s = a / b := by
  obtain ⟨hge, hle⟩ := rhe_bounds (a * 2 ^ s) b
  have h0 : a = b * (a / b) + a % b := (Nat.div_add_mod a b).symm
  have hsplit : a * 2 ^ s = a % b * 2 ^ s + (a / b * 2 ^ s) * b := by
    calc a * 2 ^ s = (b * (a / b) + a % b) * 2 ^ s := by rw [← h0]
      _ = a % b * 2 ^ s + (a / b * 2 ^ s) * b := by ring
  have hexp : a * 2 ^ s / b = a % b * 2 ^ s / b + a / b * 2 ^ s := by
    rw [hsplit, Nat.add_mul_div_right _ _ hb]
  have hv : a % b * 2 ^ s / b < 2 ^ s - 1 :=
    scaled_rem_lt (a % b) b s hb (Nat.mod_lt a hb) hbs
  have hs1 : 1 ≤ 2 ^ s := Nat.one_le_two_pow
  apply Nat.div_eq_of_lt_le
  · calc a / b * 2 ^ s ≤ a % b * 2 ^ s / b + a / b * 2 ^ s := Nat.le_add_left _ _
      _ = a * 2 ^ s / b := hexp.symm
      _ ≤ rhe (a * 2 ^ s) b := hge
  · have hmul : (a / b + 1) * 2 ^ s = a / b * 2 ^ s + 2 ^ s := by ring
    calc rhe (a * 2 ^ s) b ≤ a * 2 ^ s / b + 1 := hle
      _ = a % b * 2 ^ s / b + a / b * 2 ^ s + 1 := by rw [hexp]
      _ < 2 ^ s - 1 + a / b * 2 ^ s + 1 := by omega
      _ ≤ a / b * 2 ^ s + 2 ^ s := by omega
      _ ≤ (a / b + 1) * 2 ^ s := le_of_eq hmul.symm

/-- On small arguments (all quotients used by the chunking code), Python's
float division followed by `int` agrees with exact floor division. -/
theorem pydiv_eq_div_of_small (a b : Nat) (hb2 : 2 ≤ b) (hb : b ≤ 128)
    (ha : a < 2 ^ 45) : pydiv a b = a / b := by
  unfold pydiv
  rcases Nat.eq_zero_or_pos a with rfl | ha0
  · simp
  · rw [if_neg (by omega : ¬(a = 0 ∨ b = 0))]
    by_cases hba : b ≤ a
    · rw [if_pos hba]
      simp only
      have hq0 : 0 < a / b := Nat.div_pos hba (by omega)
      have hqlt : a / b < 2 ^ 45 := lt_of_le_of_lt (Nat.div_le_self a b) ha
      have hspec := log2fuel_spec 128 (a / b) hq0
        (lt_trans hqlt (by norm_num))
      set e := log2fuel 128 (a / b) with he
      have he45 : e < 45 := by
        by_contra hge
        push_neg at hge
        have h45 : (2:Nat) ^ 45 ≤ 2 ^ e := Nat.pow_le_pow_right (by norm_num) hge
        omega
      rw [if_neg (by omega : ¬ 52 ≤ e)]
      apply rhe_shift_div a b (52 - e) (by omega)
      have h8 : 8 ≤ 52 - e := by omega
      calc 2 * b ≤ 256 := by omega
        _ = 2 ^ 8 := by norm_num
        _ ≤ 2 ^ (52 - e) := Nat.pow_le_pow_right (by norm_num) h8
    · rw [if_neg hba]
      simp only
      have hab : a < b := by omega
      rw [Nat.div_eq_of_lt hab]
      set s := 52 + negExpAux 1200 a b 1 with hs
      have hbs : 2 * b ≤ 2 ^ s := by
        calc 2 * b ≤ 256 := by omega
          _ = 2 ^ 8 := by norm_num
          _ ≤ 2 ^ s := Nat.pow_le_pow_right (by norm_num) (by omega)
      obtain ⟨hge, hle⟩ := rhe_bounds (a * 2 ^ s) b
      have hv : a * 2 ^ s / b < 2 ^ s - 1 :=
        scaled_rem_lt a b s (by omega) hab hbs
      have hs1 : 1 ≤ 2 ^ s := Nat.one_le_two_pow
      apply Nat.div_eq_of_lt
      omega

/-- Target-length characterisation of `compute_divisible_len` for realizable
lengths: the result is `(n / cs + 1) * cs`. -/
theorem computeDivisibleLen_eq (cs n : Nat) (h2 : 2 ≤ cs) (h128 : cs ≤ 128)
    (hn : n < 2 ^ 45) : computeDivisibleLen cs n = (n / cs + 1) * cs := by
  unfold computeDivisibleLen
  rw [pydiv_eq_div_of_small n cs h2 h128 hn]

/-- The computed target length is a multiple of the chunk width lying in
`(n, n + cs]`. -/
theorem computeDivisibleLen_bounds (cs n : Nat) (h2 : 2 ≤ cs) (h128 : cs ≤ 128)
    (hn : n < 2 ^ 45) :
    n < computeDivisibleLen cs n ∧ computeDivisibleLen cs n ≤ n + cs ∧
      cs ∣ computeDivisibleLen cs n := by
  rw [computeDivisibleLen_eq cs n h2 h128 hn]
  have hmod : n % cs < cs := Nat.mod_lt n (by omega)
  have hdm : cs * (n / cs) + n % cs = n := Nat.div_add_mod n cs
  have he : (n / cs + 1) * cs = cs * (n / cs) + cs := by ring
  exact ⟨by omega, by omega, ⟨n / cs + 1, by ring⟩⟩

/-- C7: the amended claim — for chunk widths 18 and 9 and realizable stripped
lengths `n ≤ 10^12`, the chunking step pads to exactly `(n / w + 1) * w`, the
smallest multiple of the chunk width that is strictly greater than `n`; a
length already a multiple of `w` is padded by one further full chunk. -/
theorem divisible_len_smallest_multiple_above (w n : Nat) (hw : w = 18 ∨ w = 9)
    (hn : n ≤ 10 ^ 12) :
    computeDivisibleLen w n = (n / w + 1) * w ∧
    n < computeDivisibleLen w n ∧ computeDivisibleLen w n ≤ n + w ∧
    w ∣ computeDivisibleLen w n := by
  have h2 : 2 ≤ w := by rcases hw with rfl | rfl <;> omega
  have h128 : w ≤ 128 := by rcases hw with rfl | rfl <;> omega
  have h45 : n < 2 ^ 45 := lt_of_le_of_lt hn (by norm_num)
  exact ⟨computeDivisibleLen_eq w n h2 h128 h45,
    computeDivisibleLen_bounds w n h2 h128 h45⟩

/-- C7 witness: the amended claim instantiated at width 18 and length 18. -/
theorem divisible_len_smallest_multiple_above_witness :
    computeDivisibleLen 18 18 = (18 / 18 + 1) * 18 ∧
    18 < computeDivisibleLen 18 18 ∧ computeDivisibleLen 18 18 ≤ 18 + 18 ∧
    18 ∣ computeDivisibleLen 18 18 :=
  divisible_len_smallest_multiple_above 18 18 (Or.inl rfl) (by norm_num)

/-- Evaluation of `pyZfill` when no padding is needed. -/
theorem pyZfill_of_ge (s : List Char) (t : Nat) (h : t ≤ s.length) : pyZfill s t = s := by
  unfold pyZfill
  rw [if_pos h]

/-- Evaluation of `pyZfill` on the empty string. -/
theorem pyZfill_nil (t : Nat) : pyZfill [] t = List.replicate t '0' := by
  unfold pyZfill
  rcases Nat.eq_zero_or_pos t with rfl | ht
  · rw [if_pos (by simp)]
    rfl
  · rw [if_neg (by simp; omega)]

/-- Evaluation of `pyZfill` on an unsigned string needing padding. -/
theorem pyZfill_cons_of_lt (c : Char) (rest : List Char) (t : Nat)
    (h : (c :: rest).length < t) (hc : ¬(c = '-' ∨ c = '+')) :
    pyZfill (c :: rest) t
      = List.replicate (t - (c :: rest).length) '0' ++ (c :: rest) := by
  unfold pyZfill
  rw [if_neg (by omega)]
  show (if c = '-' ∨ c = '+' then c :: (List.replicate (t - (c :: rest).length) '0' ++ rest)
      else List.replicate (t - (c :: rest).length) '0' ++ (c :: rest))
    = List.replicate (t - (c :: rest).length) '0' ++ (c :: rest)
  rw [if_neg hc]

/-- Zero-filling an all-zero string of width at most `t` gives `t` zeros. -/
theorem pyZfill_replicate (k t : Nat) (hkt : k ≤ t) :
    pyZfill (List.replicate k '0') t = List.replicate t '0' := by
  rcases Nat.eq_zero_or_pos k with rfl | hk
  · simpa using pyZfill_nil t
  by_cases h1 : t ≤ k
  · have ht2 : t = k := by omega
    subst ht2
    rw [pyZfill_of_ge _ _ (by simp)]
  · have hk1 : k - 1 + 1 = k := by omega
    have hrep : List.replicate k '0' = '0' :: List.replicate (k - 1) '0' := by
      rw [← hk1, List.replicate_succ, hk1]
    rw [hrep, pyZfill_cons_of_lt _ _ _ (by simp; omega) (by simp), ← hrep]
    simp only [List.length_replicate]
    rw [← List.replicate_add]
    congr 1
    omega

/-- Prepending zeros before zero-filling to a sufficient width is absorbed by
the fill (for strings not starting with a sign character). -/
theorem pyZfill_replicate_zero (k : Nat) (a : List Char) (t : Nat)
    (ht : k + a.length ≤ t)
    (hhead : ∀ c, a.head? = some c → ¬(c = '-' ∨ c = '+')) :
    pyZfill (List.replicate k '0' ++ a) t = pyZfill a t := by
  rcases Nat.eq_zero_or_pos k with rfl | hk
  · simp
  cases a with
  | nil =>
    rw [List.append_nil, pyZfill_replicate k t (by simpa using ht), pyZfill_nil]
  | cons c rest =>
    have hc : ¬(c = '-' ∨ c = '+') := hhead c rfl
    have hk1 : k - 1 + 1 = k := by omega
    have hrep : List.replicate k '0' ++ (c :: rest)
        = '0' :: (List.replicate (k - 1) '0' ++ (c :: rest)) := by
      conv_lhs => rw [← hk1, List.replicate_succ]
      simp
    by_cases h1 : t ≤ k + (c :: rest).length
    · have ht2 : t = k + (c :: rest).length := by omega
      rw [pyZfill_of_ge _ _
        (by simp only [List.length_append, List.length_replicate, List.length_cons]
              at ht2 ⊢
            omega)]
      rw [pyZfill_cons_of_lt _ _ _
        (by simp only [List.length_cons] at ht2 ⊢; omega) hc]
      have h3 : t - (c :: rest).length = k := by
        simp only [List.length_cons] at ht2 ⊢
        omega
      rw [h3]
    · have h1' : k + rest.length + 1 < t := by
        simp only [List.length_cons] at h1
        omega
      rw [hrep, pyZfill_cons_of_lt _ _ _
        (by simp only [List.length_cons, List.length_append, List.length_replicate]; omega)
        (by simp), ← hrep]
      rw [pyZfill_cons_of_lt _ _ _ (by simp only [List.length_cons]; omega) hc]
      rw [hrep]
      have hstep : ('0' : Char) :: (List.replicate (k - 1) '0' ++ (c :: rest))
          = (List.replicate 1 '0' ++ List.replicate (k - 1) '0') ++ (c :: rest) := by
        simp
      rw [hstep, ← List.append_assoc, ← List.replicate_add, ← List.replicate_add]
      congr 2
      simp at h1 ⊢
      omega

/-- Digit strings do not start with a sign character. -/
theorem isDigitStr_head_not_sign (s : List Char) (h : isDigitStr s) :
    ∀ c, s.head? = some c → ¬(c = '-' ∨ c = '+') := by
  intro c hc hor
  cases s with
  | nil => simp at hc
  | cons x t =>
    simp only [List.head?_cons] at hc
    have hx : x = c := Option.some.inj hc
    subst hx
    have hd := h x (List.mem_cons_self x t)
    rcases hd with ⟨hl, hr⟩
    have h45 : ('-' : Char).toNat = 45 := rfl
    have h43 : ('+' : Char).toNat = 43 := rfl
    rcases hor with h | h <;> rw [h] at hl hr <;> omega

/-- C10: the amended claim — for digit strings of realizable length,
prepending `'0'` characters to either operand leaves `multiply` unchanged
provided the common chunked target length is unchanged. -/
theorem multiply_padding_invariant_same_target (k j : Nat) (a b : List Char)
    (hA : isDigitStr a) (hB : isDigitStr b)
    (hla : k + a.length ≤ 10 ^ 12) (hlb : j + b.length ≤ 10 ^ 12)
    (hta : computeTargetLen 9 (k + a.length) b.length
            = computeTargetLen 9 a.length b.length)
    (htb : computeTargetLen 9 a.length (j + b.length)
            = computeTargetLen 9 a.length b.length) :
    multiply (List.replicate k '0' ++ a) b = multiply a b ∧
    multiply a (List.replicate j '0' ++ b) = multiply a b := by
  have hb1 : b.length ≤ 10 ^ 12 := by omega
  have ha1 : a.length ≤ 10 ^ 12 := by omega
  have hbd1 := computeDivisibleLen_bounds 9 (max (k + a.length) b.length)
    (by omega) (by omega) (by omega)
  have hbd2 := computeDivisibleLen_bounds 9 (max a.length (j + b.length))
    (by omega) (by omega) (by omega)
  have hts : k + a.length ≤ computeTargetLen 9 a.length b.length := by
    rw [← hta]
    unfold computeTargetLen
    have h2 : k + a.length ≤ max (k + a.length) b.length := le_max_left _ _
    omega
  have htsb : j + b.length ≤ computeTargetLen 9 a.length b.length := by
    rw [← htb]
    unfold computeTargetLen
    have h2 : j + b.length ≤ max a.length (j + b.length) := le_max_right _ _
    omega
  constructor
  · have hpad : pyZfill (List.replicate k '0' ++ a)
        (computeTargetLen 9 a.length b.length)
        = pyZfill a (computeTargetLen 9 a.length b.length) :=
      pyZfill_replicate_zero k a _ hts (isDigitStr_head_not_sign a hA)
    unfold multiply padSplitReverse
    simp only [List.length_append, List.length_replicate]
    rw [hta, hpad]
  · have hpad : pyZfill (List.replicate j '0' ++ b)
        (computeTargetLen 9 a.length b.length)
        = pyZfill b (computeTargetLen 9 a.length b.length) :=
      pyZfill_replicate_zero j b _ htsb (isDigitStr_head_not_sign b hB)
    unfold multiply padSplitReverse
    simp only [List.length_append, List.length_replicate]
    rw [htb, hpad]

/-- C10 witness: the amended claim instantiated at concrete inputs
(`"001" * "23"` and `"1" * "023"`). -/
theorem multiply_padding_invariant_same_target_witness :
    multiply (List.replicate 2 '0' ++ "1".data) "23".data = multiply "1".data "23".data ∧
    multiply "1".data (List.replicate 1 '0' ++ "23".data) = multiply "1".data "23".data :=
  multiply_padding_invariant_same_target 2 1 "1".data "23".data (by decide) (by decide)
    (by norm_num) (by norm_num) (by decide) (by decide)

/-- `_is_smaller` hits `int(b[0])` on an empty string exactly when both
stripped operands are empty. -/
theorem isSmaller_both_empty (a b : List Char) (ha : lstrip0 a = [])
    (hb : lstrip0 b = []) : isSmaller a b = .error .indexError := by
  unfold isSmaller
  rw [ha, hb]
  simp

/-- `_is_smaller` completes whenever some stripped operand is nonempty. -/
theorem isSmaller_ok_of_ne (a b : List Char)
    (h : ¬(lstrip0 a = [] ∧ lstrip0 b = [])) : ∃ v, isSmaller a b = .ok v := by
  unfold isSmaller
  rcases h1 : lstrip0 a with _ | ⟨ac, at'⟩ <;> rcases h2 : lstrip0 b with _ | ⟨bc, bt⟩
  · exact absurd ⟨h1, h2⟩ h
  · simp
  · simp
  · by_cases hgt : (bc :: bt).length > (ac :: at').length
    · rw [if_pos hgt]
      exact ⟨true, rfl⟩
    · rw [if_neg hgt]
      by_cases heq : (ac :: at').length = (bc :: bt).length
      · rw [if_pos heq]
        exact ⟨_, rfl⟩
      · rw [if_neg heq]
        exact ⟨false, rfl⟩

/-- C8: the amended claim — `subtract` raises the invalid-sign error exactly
when an operand starts with `'-'`; sign-free operands are otherwise accepted,
except that two all-zero operands make the magnitude comparison raise an
`IndexError`. -/
theorem subtract_error_characterisation (a b : List Char)
    (hA : isOperandStr a) (hB : isOperandStr b) :
    (subtract a b = Except.error SubError.signError
        ↔ (a.head? = some '-' ∨ b.head? = some '-')) ∧
    (subtract a b = Except.error SubError.indexError
        ↔ (a.head? ≠ some '-' ∧ b.head? ≠ some '-'
            ∧ lstrip0 a = [] ∧ lstrip0 b = [])) ∧
    ((a.head? ≠ some '-' ∧ b.head? ≠ some '-'
        ∧ ¬(lstrip0 a = [] ∧ lstrip0 b = []))
        → ∃ s, subtract a b = Except.ok s) := by
  by_cases ha : a.head? = some '-'
  · refine ⟨by simp [subtract, ha], by simp [subtract, ha], by tauto⟩
  · by_cases hb : b.head? = some '-'
    · refine ⟨by simp [subtract, ha, hb], by simp [subtract, ha, hb], by tauto⟩
    · have hsub : subtract a b = match isSmaller a b with
          | .error e => .error e
          | .ok true => .ok ('-' :: operate 18 subOpChunks b a)
          | .ok false => .ok (operate 18 subOpChunks a b) := by
        unfold subtract
        rw [if_neg ha, if_neg hb]
      by_cases hz : lstrip0 a = [] ∧ lstrip0 b = []
      · have hi := isSmaller_both_empty a b hz.1 hz.2
        rw [hi] at hsub
        refine ⟨?_, ?_, ?_⟩
        · rw [hsub]
          simp [ha, hb]
        · rw [hsub]
          simp [ha, hb, hz.1, hz.2]
        · intro hcon
          exact absurd hz hcon.2.2
      · obtain ⟨v, hv⟩ := isSmaller_ok_of_ne a b hz
        rw [hv] at hsub
        cases v
        · refine ⟨?_, ?_, ?_⟩
          · rw [hsub]
            simp [ha, hb]
          · rw [hsub]
            simp [hz]
          · intro hcon
            exact ⟨_, hsub⟩
        · refine ⟨?_, ?_, ?_⟩
          · rw [hsub]
            simp [ha, hb]
          · rw [hsub]
            simp [hz]
          · intro hcon
            exact ⟨_, hsub⟩

/-- C8 witness: the amended claim instantiated at `a = "12"`, `b = "3"`. -/
theorem subtract_error_characterisation_witness :
    (subtract "12".data "3".data = Except.error SubError.signError
        ↔ ("12".data.head? = some '-' ∨ "3".data.head? = some '-')) ∧
    (subtract "12".data "3".data = Except.error SubError.indexError
        ↔ ("12".data.head? ≠ some '-' ∧ "3".data.head? ≠ some '-'
            ∧ lstrip0 "12".data = [] ∧ lstrip0 "3".data = [])) ∧
    (("12".data.head? ≠ some '-' ∧ "3".data.head? ≠ some '-'
        ∧ ¬(lstrip0 "12".data = [] ∧ lstrip0 "3".data = []))
        → ∃ s, subtract "12".data "3".data = Except.ok s) :=
  subtract_error_characterisation "12".data "3".data
    (Or.inl (by decide)) (Or.inl (by decide))

/-- Folding the base-`M` accumulation step from an arbitrary accumulator. -/
theorem valFold_acc (M : Nat) (l : List Nat) (acc : Nat) :
    l.foldl (fun a x => a * M + x) acc = acc * M ^ l.length + valFold M l := by
  induction l generalizing acc with
  | nil => simp [valFold]
  | cons v t ih =>
    simp only [List.foldl_cons, List.length_cons, valFold]
    rw [ih, ih (0 * M + v)]
    ring

/-- Head step of `valFold`. -/
theorem valFold_cons (M : Nat) (v : Nat) (l : List Nat) :
    valFold M (v :: l) = v * M ^ l.length + valFold M l := by
  have h := valFold_acc M l (0 * M + v)
  simpa [valFold] using h

/-- Base-`M` digit lists have value below `M ^ length`. -/
theorem valFold_lt (M : Nat) (hM : 0 < M) (l : List Nat) (h : ∀ x ∈ l, x < M) :
    valFold M l < M ^ l.length := by
  induction l with
  | nil => simp [valFold]
  | cons v t ih =>
    have hv : v < M := h v (List.mem_cons_self v t)
    have ht : valFold M t < M ^ t.length := ih fun x hx => h x (List.mem_cons_of_mem _ hx)
    rw [valFold_cons, List.length_cons]
    calc v * M ^ t.length + valFold M t
        < v * M ^ t.length + M ^ t.length := by omega
      _ = (v + 1) * M ^ t.length := by ring
      _ ≤ M * M ^ t.length := Nat.mul_le_mul_right _ (by omega)
      _ = M ^ (t.length + 1) := by ring

/-- `chunksN` produces the expected number of chunks. -/
theorem chunksN_length (cs m : Nat) (s : List Char) : (chunksN cs m s).length = m := by
  induction m generalizing s with
  | zero => rfl
  | succ m ih => simp [chunksN, ih]

/-- The slice expression in `_pad_split_and_reverse` computes consecutive
`cs`-wide windows. -/
theorem sliceChunks_eq_chunksN (cs : Nat) (hcs : 0 < cs) (m : Nat) (s : List Char) :
    sliceChunks s (cs * m) cs = chunksN cs m s := by
  induction m generalizing s with
  | zero =>
    unfold sliceChunks chunksN
    have h0 : (cs * 0 + cs - 1) / cs = 0 := Nat.div_eq_of_lt (by omega)
    rw [h0]
    rfl
  | succ m ih =>
    unfold sliceChunks
    have hcount : (cs * (m + 1) + cs - 1) / cs = m + 1 := by
      have h1 : cs * (m + 1) + cs - 1 = (cs - 1) + cs * (m + 1) := by omega
      rw [h1, Nat.add_mul_div_left _ _ hcs, Nat.div_eq_of_lt (by omega)]
      omega
    rw [hcount, List.range_succ_eq_map, List.map_cons, List.map_map]
    show pySlice s (0 * cs) cs :: _ = chunksN cs (m + 1) s
    unfold chunksN
    congr 1
    · simp [pySlice]
    · rw [← ih (s.drop cs)]
      unfold sliceChunks
      have hcount2 : (cs * m + cs - 1) / cs = m := by
        rcases Nat.eq_zero_or_pos m with rfl | hm
        · exact Nat.div_eq_of_lt (by omega)
        · have h1 : cs * m + cs - 1 = (cs - 1) + cs * m := by omega
          rw [h1, Nat.add_mul_div_left _ _ hcs, Nat.div_eq_of_lt (by omega)]
          omega
      rw [hcount2]
      apply List.map_congr_left
      intro k _
      show pySlice s (Nat.succ k * cs) cs = pySlice (s.drop cs) (k * cs) cs
      unfold pySlice
      rw [List.drop_drop]
      congr 1
      rw [Nat.succ_mul, Nat.add_comm]

/-- Parsing all `cs`-wide windows as base-`10^cs` digits recovers the parsed
value of the whole string. -/
theorem valFold_chunksN (cs : Nat) (hcs : 0 < cs) (m : Nat) (s : List Char)
    (hlen : s.length = cs * m) :
    valFold (10 ^ cs) ((chunksN cs m s).map strToNat) = strToNat s := by
  induction m generalizing s with
  | zero =>
    have h0 : s = [] := List.length_eq_zero.mp (by omega)
    subst h0
    rfl
  | succ m ih =>
    have htd : s.take cs ++ s.drop cs = s := List.take_append_drop cs s
    have hdlen : (s.drop cs).length = cs * m := by
      rw [List.length_drop, hlen]
      ring_nf
      omega
    unfold chunksN
    rw [List.map_cons, valFold_cons, List.length_map, chunksN_length,
      ih (s.drop cs) hdlen]
    conv_rhs => rw [← htd]
    rw [strToNat_append, hdlen]
    rw [← Nat.pow_mul]

/-- Every window produced by `chunksN` has length at most `cs`. -/
theorem chunksN_mem_length (cs m : Nat) (s : List Char) (c : List Char)
    (hc : c ∈ chunksN cs m s) : c.length ≤ cs := by
  induction m generalizing s with
  | zero => simp [chunksN] at hc
  | succ m ih =>
    unfold chunksN at hc
    rcases List.mem_cons.mp hc with rfl | hmem
    · simpa using List.length_take_le cs s
    · exact ih (s.drop cs) hmem

/-- Windows of a digit string are digit strings. -/
theorem chunksN_mem_digits (cs m : Nat) (s : List Char) (h : isDigitStr s)
    (c : List Char) (hc : c ∈ chunksN cs m s) : isDigitStr c := by
  induction m generalizing s with
  | zero => simp [chunksN] at hc
  | succ m ih =>
    unfold chunksN at hc
    rcases List.mem_cons.mp hc with rfl | hmem
    · exact fun x hx => h x (List.take_subset cs s hx)
    · exact ih (s.drop cs) (fun x hx => h x (List.drop_subset cs s hx)) hmem

/-- Zero-filling a digit string to a sufficient width yields exactly that
width. -/
theorem pyZfill_length_digit (s : List Char) (w : Nat) (h : s.length ≤ w)
    (hhead : ∀ c, s.head? = some c → ¬(c = '-' ∨ c = '+')) :
    (pyZfill s w).length = w := by
  rcases eq_or_lt_of_le h with heq | hlt
  · rw [pyZfill_of_ge s w (by omega)]
    omega
  · cases s with
    | nil =>
      rw [pyZfill_nil]
      simp
    | cons c rest =>
      rw [pyZfill_cons_of_lt c rest w hlt (hhead c rfl)]
      simp only [List.length_append, List.length_replicate]
      simp only [List.length_cons] at hlt ⊢
      omega

/-- Zero-filling an unsigned string does not change its parsed value. -/
theorem strToNat_pyZfill (s : List Char) (w : Nat)
    (hhead : ∀ c, s.head? = some c → ¬(c = '-' ∨ c = '+')) :
    strToNat (pyZfill s w) = strToNat s := by
  by_cases h : w ≤ s.length
  · rw [pyZfill_of_ge s w h]
  · cases s with
    | nil =>
      rw [pyZfill_nil, strToNat_replicate_zero]
      rfl
    | cons c rest =>
      rw [pyZfill_cons_of_lt c rest w (by omega) (hhead c rfl)]
      exact strToNat_replicate_zero_append _ _

/-- Zero-filling preserves digit strings. -/
theorem isDigitStr_pyZfill (s : List Char) (w : Nat) (h : isDigitStr s) :
    isDigitStr (pyZfill s w) := by
  by_cases hw : w ≤ s.length
  · rw [pyZfill_of_ge s w hw]
    exact h
  · cases s with
    | nil =>
      rw [pyZfill_nil]
      intro c hc
      rw [List.eq_of_mem_replicate hc]
      exact (by decide : isDigitChar '0')
    | cons c rest =>
      rw [pyZfill_cons_of_lt c rest w (by omega)
        (isDigitStr_head_not_sign _ h c rfl)]
      intro x hx
      rcases List.mem_append.mp hx with hx1 | hx2
      · rw [List.eq_of_mem_replicate hx1]
        exact (by decide : isDigitChar '0')
      · exact h x hx2

/-- `_op_chunks` for subtraction decomposes into kept total and borrow. -/
theorem subOpChunks_pair (r : Nat × Nat) :
    subOpChunks r.1 r.2 = (subT r, subB r) := by
  unfold subOpChunks subT subB
  split <;> rfl

/-- Borrow flags are 0 or -1. -/
theorem subB_cases (p : Nat × Nat) : subB p = 0 ∨ subB p = -1 := by
  unfold subB
  split <;> simp

/-- The leading borrow flag is 0 or -1. -/
theorem borrowTop_cases (l : List (Nat × Nat)) :
    borrowTop l = 0 ∨ borrowTop l = -1 := by
  cases l with
  | nil => exact Or.inl rfl
  | cons p r => exact subB_cases p

/-- The kept total of a subtraction chunk pair is non-negative. -/
theorem subT_nonneg (p : Nat × Nat) (h2 : p.2 < MOD18) : 0 ≤ subT p := by
  unfold subT
  split <;> omega

/-- The kept total of a subtraction chunk pair is below the modulus. -/
theorem subT_lt (p : Nat × Nat) (h1 : p.1 < MOD18) : subT p < (MOD18 : Int) := by
  unfold subT
  split <;> omega

/-- A strictly unequal chunk pair has a strictly positive kept total. -/
theorem subT_pos_of_ne (p : Nat × Nat) (h2 : p.2 < MOD18) (hne : p.1 ≠ p.2) :
    1 ≤ subT p := by
  unfold subT
  split <;> omega

/-- An equal chunk pair keeps a zero total and issues no borrow. -/
theorem subT_eq_zero (p : Nat × Nat) (h : p.1 = p.2) : subT p = 0 ∧ subB p = 0 := by
  unfold subT subB
  constructor <;> [skip; skip] <;> split <;> omega

/-- Mapping the padded rendering over zipped totals and carries is mapping
over their pointwise sums. -/
theorem map_zip_add (f : Int → List Char) (l1 l2 : List Int) :
    (l1.zip l2).map (fun r => f (r.1 + r.2)) = (List.zipWith (· + ·) l1 l2).map f := by
  induction l1 generalizing l2 with
  | nil => simp
  | cons x t ih =>
    cases l2 with
    | nil => simp
    | cons y u => simp [ih]

/-- Appending a pair at the top shifts the display assembly by one position. -/
theorem dispLSFaux_append (q : List (Nat × Nat)) (p : Nat × Nat) (x : Int) :
    dispLSFaux (q ++ [p]) x = dispLSFaux q (subT p) ++ [x + subB p] := by
  unfold dispLSFaux
  rw [List.map_append, List.map_append]
  have h2 : (0 : Int) :: (q.map subB ++ [p].map subB)
      = (0 :: q.map subB) ++ [subB p] := by simp
  have h1 : (q.map subT ++ [p].map subT) ++ [x]
      = (q.map subT ++ [subT p]) ++ [x] := by simp
  rw [h2, h1]
  rw [List.zipWith_append _ _ _ _ _ (by simp)]
  rfl

/-- The least-significant-first display list is the reverse of the
most-significant-first one built by `disp`. -/
theorem dispLSFaux_eq (q : List (Nat × Nat)) : ∀ x : Int,
    dispLSFaux q x = ((x + borrowTop q.reverse) :: disp q.reverse).reverse := by
  induction q using List.reverseRecOn with
  | nil =>
    intro x
    simp [dispLSFaux, borrowTop, disp]
  | append_singleton q p ih =>
    intro x
    rw [dispLSFaux_append, ih (subT p), List.reverse_append]
    simp [borrowTop, disp, List.reverse_cons]

/-- Definitional unfolding of `operate`. -/
theorem operate_def (cs : Nat) (op : Nat → Nat → Int × Int) (a b : List Char) :
    operate cs op a b
      = lstrip0 (List.flatten (List.reverse (List.map
          (fun r : Int × Int => pyZfill (intToStr (r.1 + r.2)) cs)
          (((((makeChunks cs a b).1.zip (makeChunks cs a b).2).map
              (fun r : Nat × Nat => op r.1 r.2)).map Prod.fst ++ ([0] : List Int)).zip
            ((0 : Int) :: (((makeChunks cs a b).1.zip (makeChunks cs a b).2).map
              (fun r : Nat × Nat => op r.1 r.2)).map Prod.snd))))) := rfl

/-- Structural form of `operate` for subtraction: the output is the stripped
concatenation of the padded display values, most significant first. -/
theorem operate_sub_structure (a b : List Char) :
    operate 18 subOpChunks a b
      = lstrip0 (List.flatten (List.map (fun d => pyZfill (intToStr d) 18)
          ((0 + borrowTop (((makeChunks 18 a b).1.zip (makeChunks 18 a b).2).reverse))
            :: disp (((makeChunks 18 a b).1.zip (makeChunks 18 a b).2).reverse)))) := by
  rw [operate_def]
  have hmap : (((makeChunks 18 a b).1.zip (makeChunks 18 a b).2).map
      (fun r : Nat × Nat => subOpChunks r.1 r.2))
      = ((makeChunks 18 a b).1.zip (makeChunks 18 a b).2).map
        (fun r => (subT r, subB r)) :=
    List.map_congr_left (fun r _ => subOpChunks_pair r)
  rw [hmap, List.map_map, List.map_map]
  have hfst : (Prod.fst ∘ fun r : Nat × Nat => (subT r, subB r)) = subT := rfl
  have hsnd : (Prod.snd ∘ fun r : Nat × Nat => (subT r, subB r)) = subB := rfl
  rw [hfst, hsnd, map_zip_add (fun d => pyZfill (intToStr d) 18)]
  rw [show (List.zipWith (· + ·)
      ((((makeChunks 18 a b).1.zip (makeChunks 18 a b).2).map subT) ++ ([0] : List Int))
      ((0 : Int) :: (((makeChunks 18 a b).1.zip (makeChunks 18 a b).2).map subB)))
      = dispLSFaux ((makeChunks 18 a b).1.zip (makeChunks 18 a b).2) 0 from rfl]
  rw [← List.map_reverse, dispLSFaux_eq, List.reverse_reverse]

/-- `firstNZ` skips a zero head. -/
theorem firstNZ_cons_zero (l : List Int) : firstNZ ((0 : Int) :: l) = firstNZ l := by
  simp [firstNZ, List.dropWhile_cons]

/-- `firstNZ` stops at a nonzero head. -/
theorem firstNZ_cons_ne (d : Int) (l : List Int) (h : d ≠ 0) :
    firstNZ (d :: l) = some d := by
  simp [firstNZ, List.dropWhile_cons, h]

/-- Kept total when no borrow is taken. -/
theorem subT_of_ge (p : Nat × Nat) (h : ¬ p.1 < p.2) :
    subT p = (p.1 : Int) - p.2 := by
  unfold subT
  rw [if_neg h]

/-- Borrow flag when no borrow is taken. -/
theorem subB_of_ge (p : Nat × Nat) (h : ¬ p.1 < p.2) : subB p = 0 := by
  unfold subB
  rw [if_neg h]

/-- Borrow flag when a borrow is taken. -/
theorem subB_of_lt (p : Nat × Nat) (h : p.1 < p.2) : subB p = -1 := by
  unfold subB
  rw [if_pos h]

/-- A borrow flag of `-1` certifies a strictly smaller first component. -/
theorem lt_of_subB_eq (p : Nat × Nat) (h : subB p = -1) : p.1 < p.2 := by
  by_contra hcon
  rw [subB_of_ge p hcon] at h
  exact absurd h (by norm_num)

/-- In a borrow region (leading pair strictly smaller), the first nonzero
display below the borrow is strictly positive. -/
theorem disp_borrow_region : ∀ (rest : List (Nat × Nat)) (p : Nat × Nat),
    (∀ r ∈ p :: rest, r.1 < MOD18 ∧ r.2 < MOD18) → p.1 < p.2 →
    ∃ v, 0 < v ∧ firstNZ (disp (p :: rest)) = some v := by
  intro rest
  induction rest with
  | nil =>
    intro p hb hlt
    have h1 : 1 ≤ subT p := subT_pos_of_ne p (hb p (List.mem_cons_self _ _)).2 (by omega)
    refine ⟨subT p + borrowTop [], by simp [borrowTop]; omega, ?_⟩
    show firstNZ ((subT p + borrowTop []) :: disp []) = _
    exact firstNZ_cons_ne _ _ (by simp [borrowTop]; omega)
  | cons q rest ih =>
    intro p hb hlt
    have hp2 : p.2 < MOD18 := (hb p (List.mem_cons_self _ _)).2
    have h1 : 1 ≤ subT p := subT_pos_of_ne p hp2 (by omega)
    have hd : disp (p :: q :: rest) = (subT p + borrowTop (q :: rest)) :: disp (q :: rest) :=
      rfl
    have hbt : borrowTop (q :: rest) = subB q := rfl
    rcases subB_cases q with hq | hq
    · refine ⟨subT p + borrowTop (q :: rest), by rw [hbt, hq]; omega, ?_⟩
      rw [hd]
      exact firstNZ_cons_ne _ _ (by rw [hbt, hq]; omega)
    · have hqlt : q.1 < q.2 := lt_of_subB_eq q (by rw [← hbt, hbt]; exact hq)
      by_cases hzero : subT p + borrowTop (q :: rest) = 0
      · obtain ⟨v, hv, hfz⟩ := ih q (fun r hr => hb r (List.mem_cons_of_mem _ hr)) hqlt
        refine ⟨v, hv, ?_⟩
        rw [hd, hzero, firstNZ_cons_zero]
        exact hfz
      · refine ⟨subT p + borrowTop (q :: rest), ?_, ?_⟩
        · rw [hbt, hq] at hzero ⊢
          omega
        · rw [hd]
          exact firstNZ_cons_ne _ _ hzero

/-- Leading-digit dominance for base-`MOD18` digit lists. -/
theorem valFold_dominance (x y L vx vy : Nat) (hvx : vx < MOD18 ^ L) (hxy : x < y) :
    x * MOD18 ^ L + vx < y * MOD18 ^ L + vy := by
  have e1 : (x + 1) * MOD18 ^ L = x * MOD18 ^ L + MOD18 ^ L := by ring
  have e2 : (x + 1) * MOD18 ^ L ≤ y * MOD18 ^ L := Nat.mul_le_mul_right _ (by omega)
  omega

/-- Trichotomy of the display list against the numeric order of the operand
chunk lists: equal values give all-zero displays, a smaller first operand
makes the first nonzero display `-1`, a larger one makes it positive. -/
theorem disp_trichotomy (ps : List (Nat × Nat))
    (hb : ∀ r ∈ ps, r.1 < MOD18 ∧ r.2 < MOD18) :
    (valFold MOD18 (ps.map Prod.fst) = valFold MOD18 (ps.map Prod.snd) →
      borrowTop ps = 0 ∧ ∀ d ∈ disp ps, d = 0)
    ∧ (valFold MOD18 (ps.map Prod.fst) < valFold MOD18 (ps.map Prod.snd) →
      firstNZ (borrowTop ps :: disp ps) = some (-1))
    ∧ (valFold MOD18 (ps.map Prod.snd) < valFold MOD18 (ps.map Prod.fst) →
      ∃ v, 0 < v ∧ firstNZ (borrowTop ps :: disp ps) = some v) := by
  induction ps with
  | nil =>
    refine ⟨fun _ => ⟨rfl, by simp [disp]⟩, fun h => absurd h (by simp),
      fun h => absurd h (by simp)⟩
  | cons p rest ih =>
    have hbrest : ∀ r ∈ rest, r.1 < MOD18 ∧ r.2 < MOD18 :=
      fun r hr => hb r (List.mem_cons_of_mem _ hr)
    obtain ⟨ihA, ihB, ihC⟩ := ih hbrest
    have hp := hb p (List.mem_cons_self _ _)
    have hvA : valFold MOD18 ((p :: rest).map Prod.fst)
        = p.1 * MOD18 ^ rest.length + valFold MOD18 (rest.map Prod.fst) := by
      rw [List.map_cons, valFold_cons, List.length_map]
    have hvB : valFold MOD18 ((p :: rest).map Prod.snd)
        = p.2 * MOD18 ^ rest.length + valFold MOD18 (rest.map Prod.snd) := by
      rw [List.map_cons, valFold_cons, List.length_map]
    have hM : 0 < MOD18 := by
      unfold MOD18
      positivity
    have hrlA : valFold MOD18 (rest.map Prod.fst) < MOD18 ^ rest.length := by
      have := valFold_lt MOD18 hM (rest.map Prod.fst) (by
        intro x hx
        obtain ⟨r, hr, rfl⟩ := List.mem_map.mp hx
        exact (hbrest r hr).1)
      rwa [List.length_map] at this
    have hrlB : valFold MOD18 (rest.map Prod.snd) < MOD18 ^ rest.length := by
      have := valFold_lt MOD18 hM (rest.map Prod.snd) (by
        intro x hx
        obtain ⟨r, hr, rfl⟩ := List.mem_map.mp hx
        exact (hbrest r hr).2)
      rwa [List.length_map] at this
    have hdisp : disp (p :: rest) = (subT p + borrowTop rest) :: disp rest := rfl
    rcases lt_trichotomy p.1 p.2 with hlt | heq | hgt
    · have hAB : valFold MOD18 ((p :: rest).map Prod.fst)
          < valFold MOD18 ((p :: rest).map Prod.snd) := by
        rw [hvA, hvB]
        exact valFold_dominance p.1 p.2 rest.length _ _ hrlA hlt
      have hbt : borrowTop (p :: rest) = -1 := subB_of_lt p hlt
      refine ⟨fun h => absurd h (by omega), fun _ => ?_, fun h => absurd h (by omega)⟩
      rw [hbt]
      exact firstNZ_cons_ne _ _ (by norm_num)
    · have hbt : borrowTop (p :: rest) = 0 := subB_of_ge p (by omega)
      have hsT : subT p = 0 := (subT_eq_zero p heq).1
      have hcancel : ∀ R : Nat → Nat → Prop,
          R (valFold MOD18 ((p :: rest).map Prod.fst))
            (valFold MOD18 ((p :: rest).map Prod.snd)) ↔
          R (p.1 * MOD18 ^ rest.length + valFold MOD18 (rest.map Prod.fst))
            (p.1 * MOD18 ^ rest.length + valFold MOD18 (rest.map Prod.snd)) := by
        intro R
        rw [hvA, hvB, heq]
      refine ⟨fun h => ?_, fun h => ?_, fun h => ?_⟩
      · have hr : valFold MOD18 (rest.map Prod.fst)
            = valFold MOD18 (rest.map Prod.snd) := by
          rw [hvA, hvB, heq] at h
          omega
        obtain ⟨hbt2, hall⟩ := ihA hr
        refine ⟨hbt, ?_⟩
        rw [hdisp]
        intro d hd
        rcases List.mem_cons.mp hd with rfl | hmem
        · rw [hsT, hbt2]
          norm_num
        · exact hall d hmem
      · have hr : valFold MOD18 (rest.map Prod.fst)
            < valFold MOD18 (rest.map Prod.snd) := by
          rw [hvA, hvB, heq] at h
          omega
        have := ihB hr
        rw [hbt, hdisp, hsT, firstNZ_cons_zero, zero_add]
        exact this
      · have hr : valFold MOD18 (rest.map Prod.snd)
            < valFold MOD18 (rest.map Prod.fst) := by
          rw [hvA, hvB, heq] at h
          omega
        obtain ⟨v, hv, hfz⟩ := ihC hr
        refine ⟨v, hv, ?_⟩
        rw [hbt, hdisp, hsT, firstNZ_cons_zero, zero_add]
        exact hfz
    · have hBA : valFold MOD18 ((p :: rest).map Prod.snd)
          < valFold MOD18 ((p :: rest).map Prod.fst) := by
        rw [hvA, hvB]
        exact valFold_dominance p.2 p.1 rest.length _ _ hrlB hgt
      have hbt : borrowTop (p :: rest) = 0 := subB_of_ge p (by omega)
      have hsT : 1 ≤ subT p := subT_pos_of_ne p hp.2 (by omega)
      refine ⟨fun h => absurd h (by omega), fun h => absurd h (by omega), fun _ => ?_⟩
      rw [hbt, hdisp]
      rcases borrowTop_cases rest with h0 | hm1
      · refine ⟨subT p + borrowTop rest, by omega, ?_⟩
        rw [firstNZ_cons_zero]
        exact firstNZ_cons_ne _ _ (by omega)
      · by_cases hzero : subT p + borrowTop rest = 0
        · cases rest with
          | nil => exact absurd hm1 (by simp [borrowTop])
          | cons r rest' =>
            have hrlt : r.1 < r.2 := lt_of_subB_eq r hm1
            obtain ⟨v, hv, hfz⟩ := disp_borrow_region rest' r hbrest hrlt
            refine ⟨v, hv, ?_⟩
            rw [firstNZ_cons_zero, hzero, firstNZ_cons_zero]
            exact hfz
        · refine ⟨subT p + borrowTop rest, by omega, ?_⟩
          rw [firstNZ_cons_zero]
          exact firstNZ_cons_ne _ _ hzero

/-- Stripping zeros from a concatenation. -/
theorem lstrip0_append (u v : List Char) :
    lstrip0 (u ++ v) = if lstrip0 u = [] then lstrip0 v else lstrip0 u ++ v := by
  unfold lstrip0
  rw [List.dropWhile_append]
  by_cases h : List.dropWhile (fun c => decide (c = '0')) u = []
  · rw [if_pos (List.isEmpty_iff.mpr h), if_pos h]
  · rw [if_neg (by simpa [List.isEmpty_iff] using h), if_neg h]

/-- A string headed by a non-`'0'` character strips to itself. -/
theorem lstrip0_cons_ne (c : Char) (t : List Char) (h : c ≠ '0') :
    lstrip0 (c :: t) = c :: t := by
  simp [lstrip0, h]

/-- All-zero strings strip to the empty string. -/
theorem lstrip0_replicate0 (k : Nat) : lstrip0 (List.replicate k '0') = [] := by
  induction k with
  | zero => rfl
  | succ n ih =>
    rw [List.replicate_succ]
    have h : lstrip0 ('0' :: List.replicate n '0') = lstrip0 (List.replicate n '0') := by
      simp [lstrip0]
    rw [h]
    exact ih

/-- Leading zeros are absorbed by stripping. -/
theorem lstrip0_replicate_append (k : Nat) (s : List Char) :
    lstrip0 (List.replicate k '0' ++ s) = lstrip0 s := by
  rw [lstrip0_append, if_pos (lstrip0_replicate0 k)]

/-- `natDigitsAux` of zero is empty. -/
theorem natDigitsAux_zero (f : Nat) : natDigitsAux f 0 = [] := by
  cases f with
  | zero => rfl
  | succ f => simp [natDigitsAux]

/-- Digit renderings of numbers below `10 ^ k` have at most `k` characters. -/
theorem natDigitsAux_length (f : Nat) : ∀ n k, n < 10 ^ k →
    (natDigitsAux f n).length ≤ k := by
  induction f with
  | zero =>
    intro n k _
    simp [natDigitsAux]
  | succ f ih =>
    intro n k hk
    unfold natDigitsAux
    split
    · simp
    · next hn =>
      have hk1 : 1 ≤ k := by
        by_contra hcon
        push_neg at hcon
        interval_cases k
        omega
      have he : 10 ^ k = 10 * 10 ^ (k - 1) := by
        conv_lhs => rw [← Nat.sub_add_cancel hk1]
        ring
      have h10 : n / 10 < 10 ^ (k - 1) := by omega
      have := ih (n / 10) (k - 1) h10
      simp only [List.length_append, List.length_cons, List.length_nil]
      omega

/-- Facts about a single rendered digit character. -/
theorem digitChar_facts (m : Nat) (h : m ≤ 9) :
    isDigitChar (Char.ofNat (48 + m)) ∧ (1 ≤ m → Char.ofNat (48 + m) ≠ '0')
      ∧ Char.ofNat (48 + m) ≠ '-' := by
  interval_cases m <;> exact ⟨by decide, by decide, by decide⟩

/-- The digit rendering of a positive number starts with a nonzero digit. -/
theorem natDigitsAux_head (f : Nat) : ∀ n, 1 ≤ n → n < 10 ^ f →
    ∃ c t, natDigitsAux f n = c :: t ∧ isDigitChar c ∧ c ≠ '0' ∧ c ≠ '-' := by
  induction f with
  | zero =>
    intro n h1 h2
    simp at h2
    omega
  | succ f ih =>
    intro n h1 h2
    unfold natDigitsAux
    rw [if_neg (by omega)]
    by_cases h10 : n < 10
    · have hq : n / 10 = 0 := Nat.div_eq_of_lt h10
      rw [hq, natDigitsAux_zero, List.nil_append]
      have hm : n % 10 = n := Nat.mod_eq_of_lt h10
      obtain ⟨hd1, hd2, hd3⟩ := digitChar_facts (n % 10) (by omega)
      exact ⟨Char.ofNat (48 + n % 10), [], rfl, hd1, hd2 (by omega), hd3⟩
    · have hq1 : 1 ≤ n / 10 := by omega
      have he : 10 ^ (f + 1) = 10 * 10 ^ f := by ring
      have hq2 : n / 10 < 10 ^ f := by omega
      obtain ⟨c, t, heq, hc1, hc2, hc3⟩ := ih (n / 10) hq1 hq2
      exact ⟨c, t ++ [Char.ofNat (48 + n % 10)], by rw [heq, List.cons_append],
        hc1, hc2, hc3⟩

/-- The decimal rendering of a positive number below the modulus: a nonzero
leading digit and at most 18 characters. -/
theorem natToStr_pos (n : Nat) (h1 : 1 ≤ n) (h2 : n < 10 ^ 18) :
    ∃ c t, natToStr n = c :: t ∧ isDigitChar c ∧ c ≠ '0' ∧ c ≠ '-'
      ∧ (c :: t).length ≤ 18 := by
  unfold natToStr
  rw [if_neg (by omega)]
  obtain ⟨c, t, he, hc1, hc2, hc3⟩ :=
    natDigitsAux_head 64 n h1 (lt_trans h2 (by norm_num))
  refine ⟨c, t, he, hc1, hc2, hc3, ?_⟩
  rw [← he]
  exact natDigitsAux_length 64 n 18 h2

/-- Rendered and padded zero display. -/
theorem pad18_zero : pyZfill (intToStr 0) 18 = List.replicate 18 '0' := by decide

/-- Rendered and padded `-1` display. -/
theorem pad18_neg_one :
    pyZfill (intToStr (-1)) 18 = '-' :: (List.replicate 16 '0' ++ ['1']) := by decide

/-- Digit characters are not sign characters. -/
theorem digitChar_not_sign (c : Char) (h : isDigitChar c) : ¬(c = '-' ∨ c = '+') := by
  intro hor
  rcases h with ⟨hl, hr⟩
  have h45 : ('-' : Char).toNat = 45 := rfl
  have h43 : ('+' : Char).toNat = 43 := rfl
  rcases hor with rfl | rfl <;> omega

/-- Rendering the display list: the head of the stripped concatenation of
padded displays is decided by the first nonzero display value. -/
theorem render_sign (ds : List Int) (hb : ∀ d ∈ ds, -1 ≤ d ∧ d < (MOD18 : Int)) :
    (firstNZ ds = none →
      lstrip0 (List.flatten (ds.map (fun d => pyZfill (intToStr d) 18))) = [])
    ∧ (firstNZ ds = some (-1) →
      (lstrip0 (List.flatten (ds.map (fun d => pyZfill (intToStr d) 18)))).head?
        = some '-')
    ∧ (∀ v, firstNZ ds = some v → 0 < v →
      ∃ c t2, lstrip0 (List.flatten (ds.map (fun d => pyZfill (intToStr d) 18)))
        = c :: t2 ∧ c ≠ '-') := by
  induction ds with
  | nil =>
    refine ⟨fun _ => rfl, fun h => ?_, fun v hv _ => ?_⟩
    · simp [firstNZ] at h
    · simp [firstNZ] at hv
  | cons d rest ih =>
    have hbrest : ∀ x ∈ rest, -1 ≤ x ∧ x < (MOD18 : Int) :=
      fun x hx => hb x (List.mem_cons_of_mem _ hx)
    obtain ⟨ih1, ih2, ih3⟩ := ih hbrest
    obtain ⟨hd1, hd2⟩ := hb d (List.mem_cons_self _ _)
    rw [List.map_cons, List.flatten_cons]
    rcases lt_trichotomy d 0 with hneg | hzero | hpos
    · have hdm : d = -1 := by omega
      subst hdm
      rw [pad18_neg_one,
        show ('-' :: (List.replicate 16 '0' ++ ['1']))
          ++ (rest.map (fun x => pyZfill (intToStr x) 18)).flatten
          = '-' :: ((List.replicate 16 '0' ++ ['1'])
              ++ (rest.map (fun x => pyZfill (intToStr x) 18)).flatten) from rfl,
        lstrip0_cons_ne _ _ (by decide)]
      refine ⟨fun h => ?_, fun _ => rfl, fun v hv hvpos => ?_⟩
      · rw [firstNZ_cons_ne _ _ (by norm_num)] at h
        cases h
      · rw [firstNZ_cons_ne _ _ (by norm_num)] at hv
        have hv2 : (-1 : Int) = v := Option.some.inj hv
        omega
    · subst hzero
      rw [pad18_zero, lstrip0_replicate_append, firstNZ_cons_zero]
      exact ⟨ih1, ih2, ih3⟩
    · have h18 : (10 : Nat) ^ 18 = 1000000000000000000 := by norm_num
      have hM : (MOD18 : Int) = 1000000000000000000 := by
        unfold MOD18
        norm_num
      have hdt1 : 1 ≤ d.toNat := by omega
      have hdt2 : d.toNat < 10 ^ 18 := by omega
      have hpad : intToStr d = natToStr d.toNat := by
        unfold intToStr
        rw [if_neg (by omega)]
      obtain ⟨c, t, he, hc1, hc2, hc3, hlen⟩ := natToStr_pos d.toNat hdt1 hdt2
      rw [hpad, he]
      have hres : lstrip0 ((pyZfill (c :: t) 18)
          ++ (rest.map (fun x => pyZfill (intToStr x) 18)).flatten)
          = c :: (t ++ (rest.map (fun x => pyZfill (intToStr x) 18)).flatten) := by
        by_cases hfull : 18 ≤ (c :: t).length
        · rw [pyZfill_of_ge _ _ hfull,
            show (c :: t) ++ (rest.map (fun x => pyZfill (intToStr x) 18)).flatten
              = c :: (t ++ (rest.map (fun x => pyZfill (intToStr x) 18)).flatten)
              from rfl,
            lstrip0_cons_ne _ _ hc2]
        · push_neg at hfull
          rw [pyZfill_cons_of_lt c t 18 hfull (digitChar_not_sign c hc1),
            List.append_assoc, lstrip0_replicate_append,
            show (c :: t) ++ (rest.map (fun x => pyZfill (intToStr x) 18)).flatten
              = c :: (t ++ (rest.map (fun x => pyZfill (intToStr x) 18)).flatten)
              from rfl,
            lstrip0_cons_ne _ _ hc2]
      rw [hres]
      refine ⟨fun h => ?_, fun h => ?_, fun v hv hvpos => ⟨c, _, rfl, hc3⟩⟩
      · rw [firstNZ_cons_ne _ _ (by omega)] at h
        cases h
      · rw [firstNZ_cons_ne _ _ (by omega)] at h
        have hv2 : d = -1 := Option.some.inj h
        omega

/-- Display values lie in `[-1, MOD18)`. -/
theorem disp_bounds (l : List (Nat × Nat)) (hb : ∀ r ∈ l, r.1 < MOD18 ∧ r.2 < MOD18) :
    ∀ d ∈ disp l, -1 ≤ d ∧ d < (MOD18 : Int) := by
  induction l with
  | nil =>
    intro d hd
    simp [disp] at hd
  | cons p rest ih =>
    intro d hd
    rw [show disp (p :: rest) = (subT p + borrowTop rest) :: disp rest from rfl] at hd
    rcases List.mem_cons.mp hd with rfl | hmem
    · have h1 := subT_nonneg p (hb p (List.mem_cons_self _ _)).2
      have h2 := subT_lt p (hb p (List.mem_cons_self _ _)).1
      rcases borrowTop_cases rest with h | h <;> rw [h] <;> omega
    · exact ih (fun r hr => hb r (List.mem_cons_of_mem _ hr)) d hmem

/-- Sign of `operate` for subtraction: the result starts with `'-'` exactly
when the first operand's value is strictly smaller. -/
theorem operate_sub_sign (a b : List Char) (hA : isDigitStr a) (hB : isDigitStr b)
    (hla : a.length ≤ 10 ^ 12) (hlb : b.length ≤ 10 ^ 12) :
    ((operate 18 subOpChunks a b).head? = some '-' ↔ strToNat a < strToNat b) := by
  have hA' : isDigitStr (lstrip0 a) := isDigitStr_lstrip0 a hA
  have hB' : isDigitStr (lstrip0 b) := isDigitStr_lstrip0 b hB
  have hla' : (lstrip0 a).length ≤ 10 ^ 12 :=
    le_trans (List.Sublist.length_le (List.dropWhile_sublist _)) hla
  have hlb' : (lstrip0 b).length ≤ 10 ^ 12 :=
    le_trans (List.Sublist.length_le (List.dropWhile_sublist _)) hlb
  have hbd := computeDivisibleLen_bounds 18 (max (lstrip0 a).length (lstrip0 b).length)
    (by omega) (by omega) (by
      have h1 : max (lstrip0 a).length (lstrip0 b).length ≤ 10 ^ 12 := by omega
      have h2 : (10:Nat) ^ 12 < 2 ^ 45 := by norm_num
      omega)
  set t := computeTargetLen 18 (lstrip0 a).length (lstrip0 b).length with ht
  have htc : t = computeDivisibleLen 18 (max (lstrip0 a).length (lstrip0 b).length) := rfl
  obtain ⟨m, hm⟩ := hbd.2.2
  rw [← htc] at hm
  have htmax : max (lstrip0 a).length (lstrip0 b).length < t := by
    rw [htc]
    exact hbd.1
  have hta : (lstrip0 a).length ≤ t := by omega
  have htb : (lstrip0 b).length ≤ t := by omega
  have hlenA : (pyZfill (lstrip0 a) t).length = t :=
    pyZfill_length_digit _ t hta (isDigitStr_head_not_sign _ hA')
  have hlenB : (pyZfill (lstrip0 b) t).length = t :=
    pyZfill_length_digit _ t htb (isDigitStr_head_not_sign _ hB')
  have hsliceA : sliceChunks (pyZfill (lstrip0 a) t) t 18
      = chunksN 18 m (pyZfill (lstrip0 a) t) := by
    rw [hm]
    exact sliceChunks_eq_chunksN 18 (by omega) m _
  have hsliceB : sliceChunks (pyZfill (lstrip0 b) t) t 18
      = chunksN 18 m (pyZfill (lstrip0 b) t) := by
    rw [hm]
    exact sliceChunks_eq_chunksN 18 (by omega) m _
  set A := (padSplitReverse 18 (lstrip0 a) t).map strToNat with hAdef
  set B := (padSplitReverse 18 (lstrip0 b) t).map strToNat with hBdef
  have hmk : makeChunks 18 a b = (A, B) := rfl
  have hArev : A.reverse = (chunksN 18 m (pyZfill (lstrip0 a) t)).map strToNat := by
    rw [hAdef]
    unfold padSplitReverse
    rw [hsliceA, ← List.map_reverse, List.reverse_reverse]
  have hBrev : B.reverse = (chunksN 18 m (pyZfill (lstrip0 b) t)).map strToNat := by
    rw [hBdef]
    unfold padSplitReverse
    rw [hsliceB, ← List.map_reverse, List.reverse_reverse]
  have hAlen : A.length = m := by
    have := congrArg List.length hArev
    simp only [List.length_reverse, List.length_map, chunksN_length] at this
    exact this
  have hBlen : B.length = m := by
    have := congrArg List.length hBrev
    simp only [List.length_reverse, List.length_map, chunksN_length] at this
    exact this
  have hvalA : valFold MOD18 A.reverse = strToNat a := by
    rw [hArev, show MOD18 = 10 ^ 18 from rfl,
      valFold_chunksN 18 (by omega) m _ (by rw [hlenA, hm]),
      strToNat_pyZfill _ t (isDigitStr_head_not_sign _ hA'), strToNat_lstrip0]
  have hvalB : valFold MOD18 B.reverse = strToNat b := by
    rw [hBrev, show MOD18 = 10 ^ 18 from rfl,
      valFold_chunksN 18 (by omega) m _ (by rw [hlenB, hm]),
      strToNat_pyZfill _ t (isDigitStr_head_not_sign _ hB'), strToNat_lstrip0]
  have hAmem : ∀ x ∈ A, x < MOD18 := by
    intro x hx
    rw [hAdef] at hx
    obtain ⟨ch, hch, rfl⟩ := List.mem_map.mp hx
    have hch2 : ch ∈ chunksN 18 m (pyZfill (lstrip0 a) t) := by
      unfold padSplitReverse at hch
      rw [hsliceA] at hch
      exact List.mem_reverse.mp hch
    have hlen18 := chunksN_mem_length 18 m _ ch hch2
    have hdig := chunksN_mem_digits 18 m _ (isDigitStr_pyZfill _ t hA') ch hch2
    have hlt := strToNat_lt ch hdig
    have hpow : (10:Nat) ^ ch.length ≤ 10 ^ 18 := Nat.pow_le_pow_right (by omega) hlen18
    show strToNat ch < MOD18
    rw [show MOD18 = 10 ^ 18 from rfl]
    omega
  have hBmem : ∀ x ∈ B, x < MOD18 := by
    intro x hx
    rw [hBdef] at hx
    obtain ⟨ch, hch, rfl⟩ := List.mem_map.mp hx
    have hch2 : ch ∈ chunksN 18 m (pyZfill (lstrip0 b) t) := by
      unfold padSplitReverse at hch
      rw [hsliceB] at hch
      exact List.mem_reverse.mp hch
    have hlen18 := chunksN_mem_length 18 m _ ch hch2
    have hdig := chunksN_mem_digits 18 m _ (isDigitStr_pyZfill _ t hB') ch hch2
    have hlt := strToNat_lt ch hdig
    have hpow : (10:Nat) ^ ch.length ≤ 10 ^ 18 := Nat.pow_le_pow_right (by omega) hlen18
    show strToNat ch < MOD18
    rw [show MOD18 = 10 ^ 18 from rfl]
    omega
  have hpsb : ∀ r ∈ (A.zip B).reverse, r.1 < MOD18 ∧ r.2 < MOD18 := by
    intro r hr
    have hrq : r ∈ A.zip B := List.mem_reverse.mp hr
    obtain ⟨r1, r2⟩ := r
    obtain ⟨h1, h2⟩ := List.of_mem_zip hrq
    exact ⟨hAmem r1 h1, hBmem r2 h2⟩
  have hfst : ((A.zip B).reverse).map Prod.fst = A.reverse := by
    rw [List.map_reverse, List.map_fst_zip A B (by omega)]
  have hsnd : ((A.zip B).reverse).map Prod.snd = B.reverse := by
    rw [List.map_reverse, List.map_snd_zip A B (by omega)]
  obtain ⟨tri1, tri2, tri3⟩ := disp_trichotomy ((A.zip B).reverse) hpsb
  rw [hfst, hsnd, hvalA, hvalB] at tri1 tri2 tri3
  rw [operate_sub_structure a b, hmk]
  have hps2 : (((A, B).1.zip (A, B).2).reverse) = (A.zip B).reverse := rfl
  rw [hps2, zero_add]
  have hM1 : (1 : Int) ≤ (MOD18 : Int) := by
    unfold MOD18
    norm_num
  have hdb : ∀ d ∈ (borrowTop ((A.zip B).reverse) :: disp ((A.zip B).reverse)),
      -1 ≤ d ∧ d < (MOD18 : Int) := by
    intro d hd
    rcases List.mem_cons.mp hd with rfl | hmem
    · rcases borrowTop_cases ((A.zip B).reverse) with h | h <;> rw [h] <;> omega
    · exact disp_bounds _ hpsb d hmem
  obtain ⟨r1, r2, r3⟩ := render_sign _ hdb
  rcases lt_trichotomy (strToNat a) (strToNat b) with hcmp | hcmp | hcmp
  · exact ⟨fun _ => hcmp, fun _ => r2 (tri2 hcmp)⟩
  · obtain ⟨hbt0, hall⟩ := tri1 hcmp
    have hfz : firstNZ (borrowTop ((A.zip B).reverse) :: disp ((A.zip B).reverse))
        = none := by
      unfold firstNZ
      have hdw : List.dropWhile (fun d : Int => decide (d = 0))
          (borrowTop ((A.zip B).reverse) :: disp ((A.zip B).reverse)) = [] := by
        rw [List.dropWhile_eq_nil_iff]
        intro x hx
        rcases List.mem_cons.mp hx with rfl | hmem
        · simp [hbt0]
        · simp [hall x hmem]
      rw [hdw]
      rfl
    rw [r1 hfz]
    constructor
    · intro hcon
      simp at hcon
    · intro hcon
      omega
  · obtain ⟨v, hv, hfz⟩ := tri3 hcmp
    obtain ⟨c, t2, hres, hc⟩ := r3 v hfz hv
    rw [hres]
    constructor
    · intro hcon
      simp only [List.head?_cons] at hcon
      exact absurd (Option.some.inj hcon) hc
    · intro hcon
      omega

/-- Soundness of `_is_smaller`: a `true` verdict implies a genuinely smaller
first operand (the converse fails, which is why the comparison is lossy). -/
theorem isSmaller_sound (a b : List Char) (hA : isDigitStr a) (hB : isDigitStr b)
    (h : isSmaller a b = .ok true) : strToNat a < strToNat b := by
  unfold isSmaller at h
  by_cases hgt : (lstrip0 b).length > (lstrip0 a).length
  · rcases hb' : lstrip0 b with _ | ⟨bc, bt⟩
    · rw [hb'] at hgt
      simp at hgt
    · have hbc : isDigitChar bc := (isDigitStr_lstrip0 b hB) bc (by
        rw [hb']
        exact List.mem_cons_self _ _)
      have hbc0 : bc ≠ '0' := lstrip0_head_ne_zero b bc (by rw [hb']; rfl)
      have hlt := strToNat_lt_of_shorter (lstrip0 a) bc bt
        (isDigitStr_lstrip0 a hA) hbc hbc0 (by rw [hb'] at hgt; exact hgt)
      calc strToNat a = strToNat (lstrip0 a) := (strToNat_lstrip0 a).symm
        _ < strToNat (bc :: bt) := hlt
        _ = strToNat (lstrip0 b) := by rw [hb']
        _ = strToNat b := strToNat_lstrip0 b
  · rw [if_neg hgt] at h
    by_cases heq : (lstrip0 a).length = (lstrip0 b).length
    · rw [if_pos heq] at h
      rcases ha' : lstrip0 a with _ | ⟨ac, at'⟩ <;>
        rcases hb' : lstrip0 b with _ | ⟨bc, bt⟩ <;> rw [ha', hb'] at h
      · exact absurd h (by simp)
      · rw [ha', hb'] at heq
        simp at heq
      · rw [ha', hb'] at heq
        simp at heq
      · simp only [Except.ok.injEq, decide_eq_true_eq] at h
        have hlen : at'.length = bt.length := by
          rw [ha', hb'] at heq
          simpa using heq
        have hdig : isDigitStr (ac :: at') := by
          rw [← ha']
          exact isDigitStr_lstrip0 a hA
        have hlt := strToNat_lt_of_head_lt ac at' bc bt hdig hlen h
        calc strToNat a = strToNat (lstrip0 a) := (strToNat_lstrip0 a).symm
          _ = strToNat (ac :: at') := by rw [ha']
          _ < strToNat (bc :: bt) := hlt
          _ = strToNat (lstrip0 b) := by rw [hb']
          _ = strToNat b := strToNat_lstrip0 b
    · rw [if_neg heq] at h
      exact absurd h (by simp)

/-- C3: whenever `subtract(a, b)` returns a result (digit-string operands of
realizable length, at most `10^12` characters), the result starts with `'-'`
if and only if the numeric value of `a` is strictly less than the numeric
value of `b`. -/
theorem subtract_sign_iff (a b : List Char) (hA : isDigitStr a) (hB : isDigitStr b)
    (hla : a.length ≤ 10 ^ 12) (hlb : b.length ≤ 10 ^ 12) (s : List Char)
    (h : subtract a b = Except.ok s) :
    (s.head? = some '-' ↔ strToNat a < strToNat b) := by
  unfold subtract at h
  rw [if_neg (isDigitStr_head_ne_minus a hA),
    if_neg (isDigitStr_head_ne_minus b hB)] at h
  cases hsm : isSmaller a b with
  | error e =>
    rw [hsm] at h
    exact Except.noConfusion h
  | ok v =>
    rw [hsm] at h
    cases v with
    | false =>
      have hs : operate 18 subOpChunks a b = s := Except.ok.inj h
      rw [← hs]
      exact operate_sub_sign a b hA hB hla hlb
    | true =>
      have hs : '-' :: operate 18 subOpChunks b a = s := Except.ok.inj h
      constructor
      · intro _
        exact isSmaller_sound a b hA hB hsm
      · intro _
        rw [← hs]
        rfl

/-- C3 witness: the sign equivalence instantiated at `a = "12"`, `b = "19"`. -/
theorem subtract_sign_iff_witness :
    ("-00000000000000001999999999999999993".data.head? = some '-'
      ↔ strToNat "12".data < strToNat "19".data) :=
  subtract_sign_iff "12".data "19".data (by decide) (by decide)
    (by decide) (by decide) "-00000000000000001999999999999999993".data (by rfl)

end EulerNumeric
